import Mathlib

/-!
Verification of the binding and effect-linearization subsystem of a
structural code search-and-rewrite engine (`crates/core/src/marzano_binding.rs`).

The Rust source is shallowly embedded: byte offsets become `Nat` indices into
the character list of the source string, tree-sitter nodes become explicit
records carrying their byte/row/column ranges, and the sibling structure needed
by the list-range resolver is represented by the parent node's ordered child
list.  External collaborators that are not part of the inspected file
(the node-equivalence primitive, the constant type, the top-level-effect
partitioner, the padding primitives and the text-splicing primitive) are
modelled from the specification; each such definition carries a doc comment
saying so.
-/

namespace GritCore

/-- Character-level slice of a string: the characters in positions `[a, b)`.
Models Rust's `&s[a..b]` (the embedding identifies byte offsets with
character positions; the examples are ASCII so the two agree). -/
def strSlice (s : String) (a b : Nat) : String :=
  String.mk ((s.data.drop a).take (b - a))

/-- Models Rust's `str::ends_with('\n')`. -/
def endsWithNewline (s : String) : Bool :=
  s.data.getLast? == some '\n'

/-- Models Rust's `str::starts_with('\n')`. -/
def startsWithNewline (s : String) : Bool :=
  s.data.head? == some '\n'

/-- A byte range, as in `grit_util::ByteRange`.  The source field `end` is a
Lean keyword, so it is called `stop` here. -/
structure ByteRange where
  start : Nat
  stop : Nat
deriving DecidableEq, Repr

/-- A code range, as in `grit_util::CodeRange`: a byte range plus (an
identification of) the source buffer it refers to.  The original stores a
pointer address of the source; the embedding identifies buffers by their
contents. -/
structure CodeRange where
  start : Nat
  stop : Nat
  src : String
deriving DecidableEq, Repr

/-- A one-based row/column position (`grit_util::Position`). -/
structure Position where
  line : Nat
  column : Nat
deriving DecidableEq, Repr

/-- A row/column range with byte endpoints (`grit_util::Range`). -/
structure Range where
  start : Position
  stop : Position
  startByte : Nat
  stopByte : Nat
deriving DecidableEq, Repr

/-- Modelled from the spec: the scalar constants produced by the pattern
language itself ("a reference to a scalar literal (number, boolean, string,
etc.)").  The floating-point variant of the original is omitted (floats do
not translate to the embedding); the remaining variants carry their usual
truthiness and rendering. -/
inductive Constant where
  | BooleanC (b : Bool)
  | IntegerC (i : Int)
  | StringC (s : String)
  | Undefined
deriving DecidableEq, Repr

/-- Modelled from the spec: a constant "delegates to the constant's own
truthiness" — false booleans, zero, the empty string and undefined are falsy. -/
def Constant.is_truthy : Constant → Bool
  | .BooleanC b => b
  | .IntegerC i => !(i == 0)
  | .StringC s => !(s == "")
  | .Undefined => false

/-- Modelled from the spec: rendering a constant as text. -/
def Constant.render : Constant → String
  | .BooleanC b => if b then "true" else "false"
  | .IntegerC i => toString i
  | .StringC s => s
  | .Undefined => ""

/-- The data of one tree-sitter node: kind, namedness, the grammar field it
occupies under its parent (if any), and its byte and row/column extent.
Rows and columns are zero-based as in tree-sitter. -/
structure TSNodeData where
  kindId : Nat
  named : Bool
  field : Option Nat
  startByte : Nat
  stopByte : Nat
  startRow : Nat
  startCol : Nat
  stopRow : Nat
  stopCol : Nat
deriving DecidableEq, Repr

/-- A node together with its source buffer (`marzano_util::NodeWithSource`).
`children` is the ordered list of ALL children of the node (named and
unnamed), which is the sibling row that `previous_sibling`/`next_sibling`
traverse. -/
structure NodeWithSource where
  data : TSNodeData
  children : List TSNodeData
  source : String
deriving DecidableEq, Repr

/-- Text of a node: the source slice over its byte range
(`NodeWithSource::text`). -/
def NodeWithSource.text (n : NodeWithSource) : String :=
  strSlice n.source n.data.startByte n.data.stopByte

/-- Text of a child node relative to the parent's source buffer. -/
def childText (src : String) (c : TSNodeData) : String :=
  strSlice src c.startByte c.stopByte

/-- The language predicates consulted by the core, keyed by node kind id /
field id (`MarzanoLanguage`: `is_comment`, `is_statement`,
`field_name_for_id`, node-kind names). -/
structure Language where
  isComment : Nat → Bool
  isStatement : Nat → Bool
  fieldNameForId : Nat → String
  kindName : Nat → String

/-- The children of `n` lying under grammar field `fid`
(`children_by_field_id`). -/
def childrenByFieldId (n : NodeWithSource) (fid : Nat) : List TSNodeData :=
  n.children.filter (fun c => c.field == some fid)

/-- The named children of `n` lying under grammar field `fid`
(`named_children_by_field_id`). -/
def namedChildrenByFieldId (n : NodeWithSource) (fid : Nat) : List TSNodeData :=
  n.children.filter (fun c => c.field == some fid && c.named)

/-- Positions (indices into `n.children`) of the children under field `fid`. -/
def childIndicesByFieldId (n : NodeWithSource) (fid : Nat) : List Nat :=
  (n.children.enum.filter (fun p => p.2.field == some fid)).map (fun p => p.1)

/-- The backward comment walk of `get_range_nodes_for_list`: starting from the
child at index `i`, repeatedly move to the previous sibling while that sibling
is a comment; return the index reached. -/
def walkBackward (lang : Language) (children : List TSNodeData) : Nat → Nat
  | 0 => 0
  | i + 1 =>
    match children.get? i with
    | some prev => if lang.isComment prev.kindId then walkBackward lang children i else i + 1
    | none => i + 1

/-- One fuelled step list for the forward comment walk. -/
def walkForwardAux (lang : Language) (children : List TSNodeData) : Nat → Nat → Nat
  | 0, i => i
  | fuel + 1, i =>
    match children.get? (i + 1) with
    | some next =>
      if lang.isComment next.kindId then walkForwardAux lang children fuel (i + 1) else i
    | none => i

/-- The forward comment walk of `get_range_nodes_for_list`: starting from the
child at index `i`, repeatedly move to the next sibling while that sibling is
a comment; return the index reached. -/
def walkForward (lang : Language) (children : List TSNodeData) (i : Nat) : Nat :=
  walkForwardAux lang children children.length i

/-- The list-range resolver (`get_range_nodes_for_list`): take the first and
last children under the field; walk backward from the first across comment
siblings and forward from the last across comment siblings; return the
bounding pair.  Returns `none` when the field has no children. -/
def get_range_nodes_for_list (lang : Language) (parent : NodeWithSource) (fid : Nat) :
    Option (TSNodeData × TSNodeData) :=
  match childIndicesByFieldId parent fid with
  | [] => none
  | first :: rest =>
    let lastIdx := rest.getLast?.getD first
    let lead := walkBackward lang parent.children first
    let trail := walkForward lang parent.children lastIdx
    match parent.children.get? lead, parent.children.get? trail with
    | some l, some t => some (l, t)
    | _, _ => none

/-- The tagged-variant binding type (`MarzanoBinding`), one constructor per
source variant: a literal sub-range of a source buffer, a file path, a single
node, a list of same-field children identified by parent node and field id,
a structurally absent field, and a constant reference. -/
inductive MarzanoBinding where
  | StringB (source : String) (range : ByteRange)
  | FileName (path : String)
  | Node (node : NodeWithSource)
  | ListB (parent : NodeWithSource) (fieldId : Nat)
  | Empty (parent : NodeWithSource) (fieldId : Nat)
  | ConstantRef (c : Constant)
deriving DecidableEq, Repr

namespace MarzanoBinding

/-- `PartialEq for MarzanoBinding`: same-variant structural/textual equality;
any cross-variant comparison falls into the catch-all `false` arm. -/
def beq : MarzanoBinding → MarzanoBinding → Bool
  | .Empty _ _, .Empty _ _ => true
  | .Node n1, .Node n2 => n1.text == n2.text
  | .StringB src1 r1, .StringB src2 r2 =>
    strSlice src1 r1.start r1.stop == strSlice src2 r2.start r2.stop
  | .ListB n1 f1, .ListB n2 f2 => decide (n1 = n2) && f1 == f2
  | .ConstantRef c1, .ConstantRef c2 => decide (c1 = c2)
  | _, _ => false

/-- `MarzanoBinding::singleton`: the one underlying node of a Node binding, or
of a List binding whose field has exactly one named child; `none` otherwise.
The node is returned together with its source buffer. -/
def singleton : MarzanoBinding → Option (TSNodeData × String)
  | .Node node => some (node.data, node.source)
  | .ListB parent fid =>
    match namedChildrenByFieldId parent fid with
    | [c] => some (c, parent.source)
    | _ => none
  | .StringB _ _ | .FileName _ | .Empty _ _ | .ConstantRef _ => none

/-- `MarzanoBinding::as_constant`. -/
def as_constant : MarzanoBinding → Option Constant
  | .ConstantRef c => some c
  | _ => none

/-- `MarzanoBinding::as_filename`. -/
def as_filename : MarzanoBinding → Option String
  | .FileName p => some p
  | _ => none

/-- `MarzanoBinding::as_node`. -/
def as_node : MarzanoBinding → Option NodeWithSource
  | .Node n => some n
  | _ => none

/-- `MarzanoBinding::range`: the byte range of the binding; `none` for Empty,
FileName and Constant bindings, and for List bindings whose field has no
children. -/
def range (lang : Language) : MarzanoBinding → Option ByteRange
  | .Empty _ _ => none
  | .Node node => some ⟨node.data.startByte, node.data.stopByte⟩
  | .StringB _ r => some r
  | .ListB parent fid =>
    (get_range_nodes_for_list lang parent fid).map
      (fun p => ⟨p.1.startByte, p.2.stopByte⟩)
  | .FileName _ => none
  | .ConstantRef _ => none

/-- `MarzanoBinding::code_range`: as `range`, additionally identifying the
source buffer. -/
def code_range (lang : Language) : MarzanoBinding → Option CodeRange
  | .Empty _ _ => none
  | .Node node => some ⟨node.data.startByte, node.data.stopByte, node.source⟩
  | .StringB src r => some ⟨r.start, r.stop, src⟩
  | .ListB parent fid =>
    (get_range_nodes_for_list lang parent fid).map
      (fun p => ⟨p.1.startByte, p.2.stopByte, parent.source⟩)
  | .FileName _ => none
  | .ConstantRef _ => none

/-- One-based position of a byte offset within a source buffer
(`Range::from_byte_range`). -/
def posOfByte (src : String) (b : Nat) : Position :=
  let pre := (src.data.take b)
  ⟨pre.count '\n' + 1, (pre.reverse.takeWhile (fun c => !(c == '\n'))).length + 1⟩

/-- `MarzanoBinding::position`: the row/column range of the binding; `none`
for Empty, FileName and Constant bindings, and for List bindings whose field
has no children.  List positions convert tree-sitter's zero-based rows and
columns to one-based ones. -/
def position (lang : Language) : MarzanoBinding → Option Range
  | .Empty _ _ => none
  | .Node node =>
    some ⟨⟨node.data.startRow + 1, node.data.startCol + 1⟩,
      ⟨node.data.stopRow + 1, node.data.stopCol + 1⟩,
      node.data.startByte, node.data.stopByte⟩
  | .StringB src r => some ⟨posOfByte src r.start, posOfByte src r.stop, r.start, r.stop⟩
  | .ListB parent fid =>
    (get_range_nodes_for_list lang parent fid).map
      (fun p => ⟨⟨p.1.startRow + 1, p.1.startCol + 1⟩,
        ⟨p.2.stopRow + 1, p.2.stopCol + 1⟩, p.1.startByte, p.2.stopByte⟩)
  | .FileName _ => none
  | .ConstantRef _ => none

/-- `MarzanoBinding::text`: the rendered text of the binding — the source
slice for Node/String/List bindings (the empty string for a List without a
derivable range), the path for FileName, the rendered literal for constants
and the empty string for Empty bindings. -/
def text (lang : Language) : MarzanoBinding → String
  | .Empty _ _ => ""
  | .Node node => node.text
  | .StringB s r => strSlice s r.start r.stop
  | .FileName p => p
  | .ListB parent fid =>
    match range lang (.ListB parent fid) with
    | some br => strSlice parent.source br.start br.stop
    | none => ""
  | .ConstantRef c => c.render

/-- Modelled from the spec: the node-level structural-equivalence primitive
`are_equivalent` (crate-internal collaborator `equivalence.rs`, not among the
inspected sources): "delegate to a node-level structural-equivalence
primitive".  Modelled as agreement of node kind and of rendered text. -/
def are_equivalent (a b : TSNodeData × String) : Bool :=
  a.1.kindId == b.1.kindId && childText a.2 a.1 == childText b.2 b.1

/-- Pairwise equivalence of two child lists, as produced by
`zip_longest(..).all(..)` in the List-vs-List arm: any length mismatch is
inequivalent, and every aligned pair must be node-equivalent. -/
def zipEquiv (src1 : String) (src2 : String) : List TSNodeData → List TSNodeData → Bool
  | [], [] => true
  | a :: xs, b :: ys => are_equivalent (a, src1) (b, src2) && zipEquiv src1 src2 xs ys
  | _, _ => false

/-- `MarzanoBinding::is_equivalent_to`: singleton bindings delegate to the
node-equivalence primitive; otherwise a one-sided dispatch by variant. -/
def is_equivalent_to (lang : Language) (a b : MarzanoBinding) : Bool :=
  match singleton a, singleton b with
  | some s1, some s2 => are_equivalent s1 s2
  | _, _ =>
    match a with
    | .Node node1 =>
      match b with
      | .Node node2 => are_equivalent (node1.data, node1.source) (node2.data, node2.source)
      | .StringB str r => text lang a == strSlice str r.start r.stop
      | .FileName _ | .ListB _ _ | .Empty _ _ | .ConstantRef _ => false
    | .ListB parent1 f1 =>
      match b with
      | .ListB parent2 f2 =>
        zipEquiv parent1.source parent2.source
          (namedChildrenByFieldId parent1 f1) (namedChildrenByFieldId parent2 f2)
      | .StringB _ _ | .FileName _ | .Node _ | .Empty _ _ | .ConstantRef _ => false
    | .Empty node1 f1 =>
      match b with
      | .Empty node2 f2 => node1.data.kindId == node2.data.kindId && f1 == f2
      | .StringB _ _ | .FileName _ | .Node _ | .ListB _ _ | .ConstantRef _ => false
    | .ConstantRef c1 =>
      match as_constant b with
      | some c2 => decide (c1 = c2)
      | none => false
    | .StringB s1 r => text lang b == strSlice s1 r.start r.stop
    | .FileName p1 =>
      match as_filename b with
      | some p2 => p1 == p2
      | none => false

/-- `MarzanoBinding::is_truthy`: Empty is false, a List is truthy iff its
field has at least one named child, Node/String/FileName are always true and
constants delegate to their own truthiness. -/
def is_truthy : MarzanoBinding → Bool
  | .Empty _ _ => false
  | .ListB parent fid => (namedChildrenByFieldId parent fid).length > 0
  | .Node _ => true
  | .StringB _ _ => true
  | .FileName _ => true
  | .ConstantRef c => c.is_truthy

/-- Modelled from the spec: the smart-insert separator computation
`calculate_padding` (crate-internal collaborator `smart_insert.rs`, not among
the inspected sources), which "computes separator padding from sibling
layout".  With fewer than two existing children there is no between-sibling
layout to derive a separator from, so the result is `none`; with two or more
children a newline separator is derived when the sibling layout is one
element per line. -/
def calculate_padding (lang : Language) (src : String) (children : List TSNodeData)
    (txt : String) (isFirst : Bool) : Option String :=
  match children with
  | c1 :: c2 :: _ =>
    if c2.startRow > c1.stopRow && !(endsWithNewline txt) && !(startsWithNewline txt) then
      some ("\n")
    else
      none
  | _ => none

/-- `MarzanoBinding::get_insertion_padding`: for List bindings, consult the
separator computation and otherwise force a newline after a single multi-line
child that does not end in one (when the inserted text does not start with
one); for statement Nodes, force a trailing newline when neither side already
has one; all other variants need no padding. -/
def get_insertion_padding (lang : Language) (b : MarzanoBinding) (txt : String)
    (isFirst : Bool) : Option String :=
  match b with
  | .ListB node fid =>
    let children := childrenByFieldId node fid
    if children.isEmpty then none
    else
      match calculate_padding lang node.source children txt isFirst with
      | some p => some p
      | none =>
        if children.length == 1 then
          match children.head? with
          | some child =>
            if child.stopRow > child.startRow
                && !(endsWithNewline (childText node.source child))
                && !(startsWithNewline txt) then
              some ("\n")
            else
              none
          | none => none
        else
          none
  | .Node node =>
    if lang.isStatement node.data.kindId
        && !(endsWithNewline node.text)
        && !(startsWithNewline txt) then
      some ("\n")
    else
      none
  | .StringB _ _ | .FileName _ | .Empty _ _ | .ConstantRef _ => none

/-- An analysis-log entry (`grit_util::AnalysisLog`), reduced to the fields
the claims are about: severity level, message and source buffer. -/
structure AnalysisLog where
  level : Nat
  message : String
  source : String
deriving DecidableEq, Repr

/-- `MarzanoBinding::log_empty_field_rewrite_error`: for Empty and List
bindings, produce the level-441 diagnostic naming the field and the node
kind; a no-op (no log) for every other variant. -/
def log_empty_field_rewrite_error (lang : Language) : MarzanoBinding → Option AnalysisLog
  | .Empty node fid | .ListB node fid =>
    some ⟨441,
      "Error: failed to rewrite binding, cannot derive range of empty field "
        ++ lang.fieldNameForId fid ++ " of node " ++ lang.kindName node.data.kindId,
      node.source⟩
  | .StringB _ _ | .FileName _ | .Node _ | .ConstantRef _ => none

end MarzanoBinding

/-- Discriminant of the binding variant, used to state cross-variant facts. -/
def variantTag : MarzanoBinding → Nat
  | .StringB _ _ => 0
  | .FileName _ => 1
  | .Node _ => 2
  | .ListB _ _ => 3
  | .Empty _ _ => 4
  | .ConstantRef _ => 5

/-- Whether a binding is a literal-range (String) binding. -/
def isStringVariant : MarzanoBinding → Bool
  | .StringB _ _ => true
  | _ => false

/-- The variants whose equivalence against a literal-range binding is decided
only by the one-sided textual comparison in the String dispatch arm. -/
def textualOnlyVariant : MarzanoBinding → Bool
  | .ListB _ _ | .Empty _ _ | .FileName _ | .ConstantRef _ => true
  | .StringB _ _ | .Node _ => false

/-- A pair in which one side is a literal-range binding and the other is a
List, Empty, FileName or Constant binding. -/
def stringCrossPair (a b : MarzanoBinding) : Bool :=
  (isStringVariant a && textualOnlyVariant b) || (isStringVariant b && textualOnlyVariant a)

/-- Boolean equality by a lawful `BEq` is commutative. -/
theorem beqComm {α} [BEq α] [LawfulBEq α] (a b : α) : (a == b) = (b == a) := by
  by_cases h : a = b
  · subst h; rfl
  · have h2 : ¬ b = a := fun hh => h hh.symm
    simp [h, h2]

/-- Decidable propositional equality is commutative as a boolean. -/
theorem decideEqComm {α} [DecidableEq α] (a b : α) : decide (a = b) = decide (b = a) := by
  by_cases h : a = b
  · subst h; rfl
  · have h2 : ¬ b = a := fun hh => h hh.symm
    simp [h, h2]

/-- The modelled node-equivalence primitive is symmetric. -/
theorem are_equivalent_symm (a b : TSNodeData × String) :
    MarzanoBinding.are_equivalent a b = MarzanoBinding.are_equivalent b a := by
  unfold MarzanoBinding.are_equivalent
  rw [beqComm a.1.kindId, beqComm (childText a.2 a.1)]

/-- Pairwise list equivalence is symmetric. -/
theorem zipEquiv_symm (s1 s2 : String) (l1 l2 : List TSNodeData) :
    MarzanoBinding.zipEquiv s1 s2 l1 l2 = MarzanoBinding.zipEquiv s2 s1 l2 l1 := by
  induction l1 generalizing l2 with
  | nil => cases l2 <;> rfl
  | cons a xs ih =>
    cases l2 with
    | nil => rfl
    | cons b ys =>
      show (MarzanoBinding.are_equivalent (a, s1) (b, s2) && MarzanoBinding.zipEquiv s1 s2 xs ys)
        = (MarzanoBinding.are_equivalent (b, s2) (a, s1) && MarzanoBinding.zipEquiv s2 s1 ys xs)
      rw [are_equivalent_symm, ih]

/-- Equivalence between two List bindings is symmetric. -/
theorem eqv_listb_listb_symm (lang : Language) (p1 : NodeWithSource) (f1 : Nat)
    (p2 : NodeWithSource) (f2 : Nat) :
    MarzanoBinding.is_equivalent_to lang (.ListB p1 f1) (.ListB p2 f2)
      = MarzanoBinding.is_equivalent_to lang (.ListB p2 f2) (.ListB p1 f1) := by
  simp only [MarzanoBinding.is_equivalent_to, MarzanoBinding.singleton]
  rcases h1 : namedChildrenByFieldId p1 f1 with _ | ⟨c1, _ | ⟨d1, r1⟩⟩ <;>
    rcases h2 : namedChildrenByFieldId p2 f2 with _ | ⟨c2, _ | ⟨d2, r2⟩⟩ <;>
    first
      | rfl
      | exact are_equivalent_symm _ _
      | exact zipEquiv_symm _ _ _ _

/-- Equivalence between a Node binding and a List binding is symmetric. -/
theorem eqv_node_listb_symm (lang : Language) (n : NodeWithSource)
    (p : NodeWithSource) (f : Nat) :
    MarzanoBinding.is_equivalent_to lang (.Node n) (.ListB p f)
      = MarzanoBinding.is_equivalent_to lang (.ListB p f) (.Node n) := by
  simp only [MarzanoBinding.is_equivalent_to, MarzanoBinding.singleton]
  rcases h1 : namedChildrenByFieldId p f with _ | ⟨c, _ | ⟨d, r⟩⟩
  · rfl
  · exact are_equivalent_symm _ _
  · rfl

/-- Equivalence between a List binding and an Empty binding is symmetric
(both directions are false). -/
theorem eqv_listb_empty_symm (lang : Language) (p : NodeWithSource) (f : Nat)
    (n : NodeWithSource) (g : Nat) :
    MarzanoBinding.is_equivalent_to lang (.ListB p f) (.Empty n g)
      = MarzanoBinding.is_equivalent_to lang (.Empty n g) (.ListB p f) := by
  simp only [MarzanoBinding.is_equivalent_to, MarzanoBinding.singleton]
  rcases h1 : namedChildrenByFieldId p f with _ | ⟨c, _ | ⟨d, r⟩⟩ <;> rfl

/-- Equivalence between a List binding and a FileName binding is symmetric
(both directions are false). -/
theorem eqv_listb_filename_symm (lang : Language) (p : NodeWithSource) (f : Nat)
    (path : String) :
    MarzanoBinding.is_equivalent_to lang (.ListB p f) (.FileName path)
      = MarzanoBinding.is_equivalent_to lang (.FileName path) (.ListB p f) := by
  simp only [MarzanoBinding.is_equivalent_to, MarzanoBinding.singleton]
  rcases h1 : namedChildrenByFieldId p f with _ | ⟨c, _ | ⟨d, r⟩⟩ <;> rfl

/-- Equivalence between a List binding and a Constant binding is symmetric
(both directions are false). -/
theorem eqv_listb_const_symm (lang : Language) (p : NodeWithSource) (f : Nat)
    (c : Constant) :
    MarzanoBinding.is_equivalent_to lang (.ListB p f) (.ConstantRef c)
      = MarzanoBinding.is_equivalent_to lang (.ConstantRef c) (.ListB p f) := by
  simp only [MarzanoBinding.is_equivalent_to, MarzanoBinding.singleton]
  rcases h1 : namedChildrenByFieldId p f with _ | ⟨cc, _ | ⟨d, r⟩⟩ <;> rfl

/-- Equivalence between two Empty bindings is symmetric. -/
theorem eqv_empty_empty_symm (lang : Language) (n1 : NodeWithSource) (f1 : Nat)
    (n2 : NodeWithSource) (f2 : Nat) :
    MarzanoBinding.is_equivalent_to lang (.Empty n1 f1) (.Empty n2 f2)
      = MarzanoBinding.is_equivalent_to lang (.Empty n2 f2) (.Empty n1 f1) := by
  show (n1.data.kindId == n2.data.kindId && f1 == f2)
    = (n2.data.kindId == n1.data.kindId && f2 == f1)
  rw [beqComm n1.data.kindId, beqComm f1]

/-- A small concrete language used by the concrete instances below: kind 90
is the comment kind, kind 10 is a statement kind, kind 1 is a function
declaration. -/
def exampleLang : Language where
  isComment := fun k => k == 90
  isStatement := fun k => k == 10
  fieldNameForId := fun _ => "body"
  kindName := fun k => if k == 1 then "function_declaration" else "node"

/-- A leaf statement node spanning the whole two-character buffer `ab`. -/
def nodeAB : NodeWithSource :=
  ⟨⟨10, true, none, 0, 2, 0, 0, 0, 2⟩, [], "ab"⟩

/-- C2 counterexample: a literal-range binding over the text `a` is judged
equivalent to a FileName binding with path `a`, but the comparison in the
opposite order is false — `is_equivalent_to` is not symmetric for every pair
of variants. -/
theorem c2_symmetry_counterexample :
    MarzanoBinding.is_equivalent_to exampleLang (.StringB ("a") ⟨0, 1⟩) (.FileName ("a")) = true ∧
    MarzanoBinding.is_equivalent_to exampleLang (.FileName ("a")) (.StringB ("a") ⟨0, 1⟩) = false :=
  ⟨by decide, by decide⟩

/-- C2 (amended): `is_equivalent_to` is symmetric for every pair of bindings
in which no side is a literal-range (String) binding paired with a List,
Empty, FileName or Constant binding; for the excluded pairs the String side
performs a one-way textual comparison while the opposite direction returns
false. -/
theorem c2_equivalence_symmetric_outside_string_cross (lang : Language)
    (a b : MarzanoBinding) (h : stringCrossPair a b = false) :
    MarzanoBinding.is_equivalent_to lang a b = MarzanoBinding.is_equivalent_to lang b a := by
  cases a <;> cases b <;>
    first
      | rfl
      | exact Bool.noConfusion h
      | exact are_equivalent_symm _ _
      | exact beqComm _ _
      | exact decideEqComm _ _
      | exact eqv_listb_listb_symm lang _ _ _ _
      | exact eqv_node_listb_symm lang _ _ _
      | exact (eqv_node_listb_symm lang _ _ _).symm
      | exact eqv_listb_empty_symm lang _ _ _ _
      | exact (eqv_listb_empty_symm lang _ _ _ _).symm
      | exact eqv_listb_filename_symm lang _ _ _
      | exact (eqv_listb_filename_symm lang _ _ _).symm
      | exact eqv_listb_const_symm lang _ _ _
      | exact (eqv_listb_const_symm lang _ _ _).symm
      | exact eqv_empty_empty_symm lang _ _ _ _

/-- Witness for the amended C2 theorem at a concrete Node/String pair. -/
theorem c2_equivalence_symmetric_witness :
    stringCrossPair (.Node nodeAB) (.StringB ("ab") ⟨0, 2⟩) = false ∧
    MarzanoBinding.is_equivalent_to exampleLang (.Node nodeAB) (.StringB ("ab") ⟨0, 2⟩)
      = MarzanoBinding.is_equivalent_to exampleLang (.StringB ("ab") ⟨0, 2⟩) (.Node nodeAB) :=
  ⟨by decide, c2_equivalence_symmetric_outside_string_cross exampleLang _ _ (by decide)⟩

/-- C4 counterexample: a Node binding and a literal-range binding whose
rendered texts agree still compare unequal under `PartialEq` — the claimed
Node-vs-Literal-range textual exception does not exist in the code. -/
theorem c4_node_string_eq_counterexample :
    MarzanoBinding.beq (.Node nodeAB) (.StringB ("ab") ⟨0, 2⟩) = false ∧
    NodeWithSource.text nodeAB = strSlice ("ab") 0 2 :=
  ⟨rfl, rfl⟩

/-- C4 (amended): `PartialEq` equality between two bindings of different
variants is always false, with no cross-variant textual exception. -/
theorem c4_cross_variant_eq_always_false (a b : MarzanoBinding)
    (h : variantTag a ≠ variantTag b) : MarzanoBinding.beq a b = false := by
  cases a <;> cases b <;> first | rfl | exact absurd rfl h

/-- Witness for the amended C4 theorem at a concrete Node/String pair. -/
theorem c4_cross_variant_eq_witness :
    variantTag (.Node nodeAB) ≠ variantTag (.StringB ("ab") ⟨0, 2⟩) ∧
    MarzanoBinding.beq (.Node nodeAB) (.StringB ("ab") ⟨0, 2⟩) = false :=
  ⟨by decide, c4_cross_variant_eq_always_false _ _ (by decide)⟩

/-- C5: the truthiness table of `is_truthy` — Node, String and FileName
bindings are always truthy, Empty bindings never are, a List binding is
truthy exactly when its field has at least one matched (named) child, and a
Constant binding delegates to the constant's own truthiness. -/
theorem c5_is_truthy_by_variant :
    (∀ n : NodeWithSource, MarzanoBinding.is_truthy (.Node n) = true) ∧
    (∀ s r, MarzanoBinding.is_truthy (.StringB s r) = true) ∧
    (∀ p, MarzanoBinding.is_truthy (.FileName p) = true) ∧
    (∀ n fid, MarzanoBinding.is_truthy (.Empty n fid) = false) ∧
    (∀ parent fid, MarzanoBinding.is_truthy (.ListB parent fid)
      = decide (0 < (namedChildrenByFieldId parent fid).length)) ∧
    (∀ c : Constant, MarzanoBinding.is_truthy (.ConstantRef c) = c.is_truthy) :=
  ⟨fun _ => rfl, fun _ _ => rfl, fun _ => rfl, fun _ _ => rfl,
    fun _ _ => rfl, fun _ => rfl⟩

/-- C8: `range`, `position` and `code_range` all return `none` on Empty,
FileName and Constant bindings — by contract, not by failing. -/
theorem c8_nonpositional_variants_have_no_range (lang : Language) :
    (∀ n fid, MarzanoBinding.range lang (.Empty n fid) = none
      ∧ MarzanoBinding.position lang (.Empty n fid) = none
      ∧ MarzanoBinding.code_range lang (.Empty n fid) = none) ∧
    (∀ p, MarzanoBinding.range lang (.FileName p) = none
      ∧ MarzanoBinding.position lang (.FileName p) = none
      ∧ MarzanoBinding.code_range lang (.FileName p) = none) ∧
    (∀ c, MarzanoBinding.range lang (.ConstantRef c) = none
      ∧ MarzanoBinding.position lang (.ConstantRef c) = none
      ∧ MarzanoBinding.code_range lang (.ConstantRef c) = none) :=
  ⟨fun _ _ => ⟨rfl, rfl, rfl⟩, fun _ => ⟨rfl, rfl, rfl⟩, fun _ => ⟨rfl, rfl, rfl⟩⟩

/-- C10: `PartialEq` equality between any two Empty bindings is `true`
unconditionally, while `is_equivalent_to` between the same two bindings
additionally requires the same grammar node kind and the same field id. -/
theorem c10_empty_eq_ignores_kind_and_field (lang : Language)
    (n1 : NodeWithSource) (f1 : Nat) (n2 : NodeWithSource) (f2 : Nat) :
    MarzanoBinding.beq (.Empty n1 f1) (.Empty n2 f2) = true ∧
    MarzanoBinding.is_equivalent_to lang (.Empty n1 f1) (.Empty n2 f2)
      = (n1.data.kindId == n2.data.kindId && f1 == f2) :=
  ⟨rfl, rfl⟩

/-- C6 counterexample: inserting the empty string adjacent to a statement
Node binding whose text does not end in a newline yields a synthesized
newline — empty-text insertion is not newline-free for every variant. -/
theorem c6_empty_insertion_counterexample :
    MarzanoBinding.get_insertion_padding exampleLang (.Node nodeAB) "" true = some ("\n") := by
  decide

/-- C6 (amended): inserting empty text yields no padding for String,
FileName, Empty and Constant bindings, for List bindings whose field has no
children, and for Node bindings that are not statements or already end in a
newline; but for a statement Node binding whose text does not end in a
newline, `get_insertion_padding` with empty text still returns a newline. -/
theorem c6_empty_text_insertion_padding (lang : Language) :
    (∀ s r isF, MarzanoBinding.get_insertion_padding lang (.StringB s r) "" isF = none) ∧
    (∀ p isF, MarzanoBinding.get_insertion_padding lang (.FileName p) "" isF = none) ∧
    (∀ n fid isF, MarzanoBinding.get_insertion_padding lang (.Empty n fid) "" isF = none) ∧
    (∀ c isF, MarzanoBinding.get_insertion_padding lang (.ConstantRef c) "" isF = none) ∧
    (∀ parent fid isF, childrenByFieldId parent fid = [] →
      MarzanoBinding.get_insertion_padding lang (.ListB parent fid) "" isF = none) ∧
    (∀ n isF, lang.isStatement n.data.kindId = false →
      MarzanoBinding.get_insertion_padding lang (.Node n) "" isF = none) ∧
    (∀ n isF, endsWithNewline n.text = true →
      MarzanoBinding.get_insertion_padding lang (.Node n) "" isF = none) ∧
    (∀ n isF, lang.isStatement n.data.kindId = true → endsWithNewline n.text = false →
      MarzanoBinding.get_insertion_padding lang (.Node n) "" isF = some ("\n")) := by
  refine ⟨fun _ _ _ => rfl, fun _ _ => rfl, fun _ _ _ => rfl, fun _ _ => rfl, ?_, ?_, ?_, ?_⟩
  · intro parent fid isF h
    simp [MarzanoBinding.get_insertion_padding, h]
  · intro n isF h
    simp [MarzanoBinding.get_insertion_padding, h]
  · intro n isF h
    simp [MarzanoBinding.get_insertion_padding, h]
  · intro n isF h1 h2
    simp [MarzanoBinding.get_insertion_padding, h1, h2, startsWithNewline]

/-- Witness for the amended C6 theorem at a concrete statement node. -/
theorem c6_empty_text_insertion_witness :
    exampleLang.isStatement nodeAB.data.kindId = true ∧
    endsWithNewline nodeAB.text = false ∧
    MarzanoBinding.get_insertion_padding exampleLang (.Node nodeAB) "" true = some ("\n") :=
  ⟨by decide, by decide,
    (c6_empty_text_insertion_padding exampleLang).2.2.2.2.2.2.2 nodeAB true
      (by decide) (by decide)⟩

/-- C9: for a List binding over a field with exactly one existing child that
spans multiple lines and whose text does not end in a newline, inserting
text that does not start with a newline returns a synthesized newline
separator. -/
theorem c9_single_multiline_child_forces_newline (lang : Language)
    (parent : NodeWithSource) (fid : Nat) (child : TSNodeData) (txt : String) (isF : Bool)
    (hc : childrenByFieldId parent fid = [child])
    (hrow : child.startRow < child.stopRow)
    (hend : endsWithNewline (childText parent.source child) = false)
    (hstart : startsWithNewline txt = false) :
    MarzanoBinding.get_insertion_padding lang (.ListB parent fid) txt isF = some ("\n") := by
  simp [MarzanoBinding.get_insertion_padding, hc, MarzanoBinding.calculate_padding,
    hrow, hend, hstart]

/-- A parent node whose field 7 holds exactly one child spanning two lines
and not ending in a newline. -/
def multiLineParent : NodeWithSource :=
  ⟨⟨2, true, none, 0, 9, 0, 0, 1, 4⟩, [⟨3, true, some 7, 0, 9, 0, 0, 1, 4⟩], "foo(\nbar)"⟩

/-- Witness for the C9 theorem at a concrete single-child multi-line list. -/
theorem c9_single_multiline_child_witness :
    childrenByFieldId multiLineParent 7 = [⟨3, true, some 7, 0, 9, 0, 0, 1, 4⟩] ∧
    MarzanoBinding.get_insertion_padding exampleLang (.ListB multiLineParent 7) ("baz") true
      = some ("\n") :=
  ⟨by decide,
    c9_single_multiline_child_forces_newline exampleLang multiLineParent 7
      ⟨3, true, some 7, 0, 9, 0, 0, 1, 4⟩ ("baz") true
      (by decide) (by decide) (by decide) (by decide)⟩

/-- Filtering an enumeration is empty exactly when filtering the plain list
is. -/
theorem enumFrom_filter_nil (p : TSNodeData → Bool) :
    ∀ (s : Nat) (l : List TSNodeData),
      ((List.enumFrom s l).filter (fun q => p q.2) = []) ↔ (l.filter p = []) := by
  intro s l
  induction l generalizing s with
  | nil => simp
  | cons a t ih =>
    show ((s, a) :: List.enumFrom (s + 1) t).filter (fun q => p q.2) = [] ↔ _
    cases hp : p a <;> simp [List.filter_cons, hp, ih]

/-- Every index produced by filtering an enumeration is within the
enumeration's bounds. -/
theorem enumFrom_filter_mem (p : TSNodeData → Bool) :
    ∀ (s : Nat) (l : List TSNodeData) (i : Nat),
      i ∈ (((List.enumFrom s l).filter (fun q => p q.2)).map Prod.fst) →
      s ≤ i ∧ i < s + l.length := by
  intro s l
  induction l generalizing s with
  | nil => intro i h; simp at h
  | cons a t ih =>
    intro i h
    rw [show List.enumFrom s (a :: t) = (s, a) :: List.enumFrom (s + 1) t from rfl] at h
    cases hp : p a with
    | true =>
      rw [List.filter_cons] at h
      simp only [hp, if_true] at h
      rcases List.mem_cons.mp h with heq | hmem
      · subst heq; constructor
        · exact Nat.le_refl _
        · simp [Nat.lt_succ_of_lt, Nat.lt_add_of_pos_right]
      · have := ih (s + 1) i hmem
        constructor
        · omega
        · simp only [List.length_cons]; omega
    | false =>
      rw [List.filter_cons] at h
      simp only [hp] at h
      have := ih (s + 1) i (by simpa using h)
      constructor
      · omega
      · simp only [List.length_cons]; omega

/-- A field's index list is empty exactly when its child list is. -/
theorem childIndices_nil_iff (n : NodeWithSource) (fid : Nat) :
    childIndicesByFieldId n fid = [] ↔ childrenByFieldId n fid = [] := by
  unfold childIndicesByFieldId childrenByFieldId
  rw [List.map_eq_nil_iff]
  exact enumFrom_filter_nil (fun c => c.field == some fid) 0 n.children

/-- Every index in a field's index list addresses an existing child. -/
theorem childIndices_mem_lt (n : NodeWithSource) (fid : Nat) (i : Nat)
    (h : i ∈ childIndicesByFieldId n fid) : i < n.children.length := by
  have := enumFrom_filter_mem (fun c => c.field == some fid) 0 n.children i h
  omega

/-- The default-carrying last element of a list is a member of the list
extended with the default. -/
theorem getLastD_mem_cons (a : Nat) (l : List Nat) : l.getLast?.getD a ∈ a :: l := by
  rcases h : l.getLast? with _ | x
  · exact List.mem_cons_self a l
  · have hx : x ∈ l := by
      rcases List.mem_getLast?_eq_getLast
          (show x ∈ l.getLast? by rw [h]; exact Option.mem_some_iff.mpr rfl) with ⟨hne, hxx⟩
      rw [hxx]; exact List.getLast_mem hne
    exact List.mem_cons_of_mem a hx

/-- Step equation: the backward walk at a missing previous sibling. -/
theorem walkBackward_succ_none (lang : Language) (ch : List TSNodeData) (n : Nat)
    (h : ch.get? n = none) : walkBackward lang ch (n + 1) = n + 1 := by
  have e : walkBackward lang ch (n + 1) =
      (match ch.get? n with
       | some prev => if lang.isComment prev.kindId then walkBackward lang ch n else n + 1
       | none => n + 1) := rfl
  rw [e, h]

/-- Step equation: the backward walk across a comment sibling. -/
theorem walkBackward_succ_comment (lang : Language) (ch : List TSNodeData) (n : Nat)
    (prev : TSNodeData) (h : ch.get? n = some prev)
    (hc : lang.isComment prev.kindId = true) :
    walkBackward lang ch (n + 1) = walkBackward lang ch n := by
  have e : walkBackward lang ch (n + 1) =
      (match ch.get? n with
       | some prev => if lang.isComment prev.kindId then walkBackward lang ch n else n + 1
       | none => n + 1) := rfl
  rw [e, h]
  simp [hc]

/-- Step equation: the backward walk stopping at a non-comment sibling. -/
theorem walkBackward_succ_stop (lang : Language) (ch : List TSNodeData) (n : Nat)
    (prev : TSNodeData) (h : ch.get? n = some prev)
    (hc : lang.isComment prev.kindId = false) :
    walkBackward lang ch (n + 1) = n + 1 := by
  have e : walkBackward lang ch (n + 1) =
      (match ch.get? n with
       | some prev => if lang.isComment prev.kindId then walkBackward lang ch n else n + 1
       | none => n + 1) := rfl
  rw [e, h]
  simp [hc]

/-- Step equation: the forward walk at a missing next sibling. -/
theorem walkForwardAux_succ_none (lang : Language) (ch : List TSNodeData) (f i : Nat)
    (h : ch.get? (i + 1) = none) : walkForwardAux lang ch (f + 1) i = i := by
  have e : walkForwardAux lang ch (f + 1) i =
      (match ch.get? (i + 1) with
       | some next =>
         if lang.isComment next.kindId then walkForwardAux lang ch f (i + 1) else i
       | none => i) := rfl
  rw [e, h]

/-- Step equation: the forward walk across a comment sibling. -/
theorem walkForwardAux_succ_comment (lang : Language) (ch : List TSNodeData) (f i : Nat)
    (next : TSNodeData) (h : ch.get? (i + 1) = some next)
    (hc : lang.isComment next.kindId = true) :
    walkForwardAux lang ch (f + 1) i = walkForwardAux lang ch f (i + 1) := by
  have e : walkForwardAux lang ch (f + 1) i =
      (match ch.get? (i + 1) with
       | some next =>
         if lang.isComment next.kindId then walkForwardAux lang ch f (i + 1) else i
       | none => i) := rfl
  rw [e, h]
  simp [hc]

/-- Step equation: the forward walk stopping at a non-comment sibling. -/
theorem walkForwardAux_succ_stop (lang : Language) (ch : List TSNodeData) (f i : Nat)
    (next : TSNodeData) (h : ch.get? (i + 1) = some next)
    (hc : lang.isComment next.kindId = false) :
    walkForwardAux lang ch (f + 1) i = i := by
  have e : walkForwardAux lang ch (f + 1) i =
      (match ch.get? (i + 1) with
       | some next =>
         if lang.isComment next.kindId then walkForwardAux lang ch f (i + 1) else i
       | none => i) := rfl
  rw [e, h]
  simp [hc]

/-- The backward comment walk never moves forward. -/
theorem walkBackward_le (lang : Language) (ch : List TSNodeData) (i : Nat) :
    walkBackward lang ch i ≤ i := by
  induction i with
  | zero => exact Nat.le_refl 0
  | succ n ih =>
    cases hget : ch.get? n with
    | none => rw [walkBackward_succ_none lang ch n hget]
    | some prev =>
      cases hc : lang.isComment prev.kindId with
      | true =>
        rw [walkBackward_succ_comment lang ch n prev hget hc]
        exact Nat.le_trans ih (Nat.le_succ n)
      | false => rw [walkBackward_succ_stop lang ch n prev hget hc]

/-- Everything strictly between the backward walk's result and its start is a
comment sibling. -/
theorem walkBackward_comments (lang : Language) (ch : List TSNodeData) (i : Nat) :
    ∀ m, walkBackward lang ch i ≤ m → m < i →
      ∃ d, ch.get? m = some d ∧ lang.isComment d.kindId = true := by
  induction i with
  | zero => intro m _ h2; exact absurd h2 (Nat.not_lt_zero m)
  | succ n ih =>
    intro m h1 h2
    cases hget : ch.get? n with
    | none =>
      rw [walkBackward_succ_none lang ch n hget] at h1
      omega
    | some prev =>
      cases hc : lang.isComment prev.kindId with
      | false =>
        rw [walkBackward_succ_stop lang ch n prev hget hc] at h1
        omega
      | true =>
        rw [walkBackward_succ_comment lang ch n prev hget hc] at h1
        rcases Nat.lt_or_eq_of_le (Nat.lt_succ_iff.mp h2) with hlt | heq
        · exact ih m h1 hlt
        · subst heq; exact ⟨prev, hget, hc⟩

/-- The backward walk stops just above a non-comment sibling: whenever it
returns a positive index, the previous sibling is not a comment. -/
theorem walkBackward_stop (lang : Language) (ch : List TSNodeData) (i : Nat) :
    ∀ p d, walkBackward lang ch i = p + 1 → ch.get? p = some d →
      lang.isComment d.kindId = false := by
  induction i with
  | zero => intro p d h _; simp [walkBackward] at h
  | succ n ih =>
    intro p d heq hget2
    cases hget : ch.get? n with
    | none =>
      rw [walkBackward_succ_none lang ch n hget] at heq
      have hp : n = p := by omega
      rw [← hp] at hget2
      rw [hget] at hget2
      cases hget2
    | some prev =>
      cases hc : lang.isComment prev.kindId with
      | true =>
        rw [walkBackward_succ_comment lang ch n prev hget hc] at heq
        exact ih p d heq hget2
      | false =>
        rw [walkBackward_succ_stop lang ch n prev hget hc] at heq
        have hp : n = p := by omega
        rw [← hp] at hget2
        rw [hget] at hget2
        cases hget2
        exact hc

/-- The forward comment walk never moves backward. -/
theorem walkForwardAux_ge (lang : Language) (ch : List TSNodeData) :
    ∀ fuel i, i ≤ walkForwardAux lang ch fuel i := by
  intro fuel
  induction fuel with
  | zero => intro i; exact Nat.le_refl i
  | succ f ih =>
    intro i
    cases hget : ch.get? (i + 1) with
    | none => rw [walkForwardAux_succ_none lang ch f i hget]
    | some next =>
      cases hc : lang.isComment next.kindId with
      | true =>
        rw [walkForwardAux_succ_comment lang ch f i next hget hc]
        exact Nat.le_trans (Nat.le_succ i) (ih (i + 1))
      | false => rw [walkForwardAux_succ_stop lang ch f i next hget hc]

/-- The forward comment walk stays within the sibling row. -/
theorem walkForwardAux_lt (lang : Language) (ch : List TSNodeData) :
    ∀ fuel i, i < ch.length → walkForwardAux lang ch fuel i < ch.length := by
  intro fuel
  induction fuel with
  | zero => intro i h; exact h
  | succ f ih =>
    intro i h
    cases hget : ch.get? (i + 1) with
    | none => rw [walkForwardAux_succ_none lang ch f i hget]; exact h
    | some next =>
      cases hc : lang.isComment next.kindId with
      | true =>
        rw [walkForwardAux_succ_comment lang ch f i next hget hc]
        exact ih (i + 1) (List.get?_eq_some.mp hget).1
      | false => rw [walkForwardAux_succ_stop lang ch f i next hget hc]; exact h

/-- Everything strictly between the forward walk's start and its result is a
comment sibling. -/
theorem walkForwardAux_comments (lang : Language) (ch : List TSNodeData) :
    ∀ fuel i m, i < m → m ≤ walkForwardAux lang ch fuel i →
      ∃ d, ch.get? m = some d ∧ lang.isComment d.kindId = true := by
  intro fuel
  induction fuel with
  | zero => intro i m h1 h2; simp [walkForwardAux] at h2; omega
  | succ f ih =>
    intro i m h1 h2
    cases hget : ch.get? (i + 1) with
    | none =>
      rw [walkForwardAux_succ_none lang ch f i hget] at h2
      omega
    | some next =>
      cases hc : lang.isComment next.kindId with
      | false =>
        rw [walkForwardAux_succ_stop lang ch f i next hget hc] at h2
        omega
      | true =>
        rw [walkForwardAux_succ_comment lang ch f i next hget hc] at h2
        rcases Nat.lt_or_eq_of_le (Nat.succ_le_of_lt h1) with hlt | heq
        · exact ih (i + 1) m hlt h2
        · exact heq ▸ ⟨next, hget, hc⟩

/-- With enough fuel, the sibling following the forward walk's result is not
a comment (the walk stops at the first non-comment sibling). -/
theorem walkForwardAux_stop (lang : Language) (ch : List TSNodeData) :
    ∀ fuel i, ch.length ≤ fuel + i →
      ∀ d, ch.get? (walkForwardAux lang ch fuel i + 1) = some d →
        lang.isComment d.kindId = false := by
  intro fuel
  induction fuel with
  | zero =>
    intro i hlen d hget
    have hlt := (List.get?_eq_some.mp hget).1
    have : walkForwardAux lang ch 0 i = i := rfl
    rw [this] at hlt
    omega
  | succ f ih =>
    intro i hlen d hget
    cases hget1 : ch.get? (i + 1) with
    | none =>
      rw [walkForwardAux_succ_none lang ch f i hget1] at hget
      rw [hget1] at hget
      cases hget
    | some next =>
      cases hc : lang.isComment next.kindId with
      | true =>
        rw [walkForwardAux_succ_comment lang ch f i next hget1 hc] at hget
        exact ih (i + 1) (by omega) d hget
      | false =>
        rw [walkForwardAux_succ_stop lang ch f i next hget1 hc] at hget
        rw [hget1] at hget
        cases hget
        exact hc

/-- C7: the list-range resolver returns `none` exactly on a field with zero
children; with at least one child it returns the pair of nodes reached by
extending the first child backward across contiguous comment siblings and the
last child forward across contiguous comment siblings, stopping in each
direction at the first non-comment sibling. -/
theorem c7_list_range_resolver_bounds (lang : Language) (parent : NodeWithSource) (fid : Nat) :
    (childrenByFieldId parent fid = [] → get_range_nodes_for_list lang parent fid = none) ∧
    (∀ first rest, childIndicesByFieldId parent fid = first :: rest →
      ∃ j k lnode tnode,
        parent.children.get? j = some lnode ∧
        parent.children.get? k = some tnode ∧
        get_range_nodes_for_list lang parent fid = some (lnode, tnode) ∧
        j ≤ first ∧
        rest.getLast?.getD first ≤ k ∧
        (∀ m, j ≤ m → m < first →
          ∃ d, parent.children.get? m = some d ∧ lang.isComment d.kindId = true) ∧
        (∀ p d, j = p + 1 → parent.children.get? p = some d →
          lang.isComment d.kindId = false) ∧
        (∀ m, rest.getLast?.getD first < m → m ≤ k →
          ∃ d, parent.children.get? m = some d ∧ lang.isComment d.kindId = true) ∧
        (∀ d, parent.children.get? (k + 1) = some d →
          lang.isComment d.kindId = false)) := by
  constructor
  · intro h
    unfold get_range_nodes_for_list
    rw [(childIndices_nil_iff parent fid).mpr h]
  · intro first rest hci
    have hfirst_mem : first ∈ childIndicesByFieldId parent fid := by
      rw [hci]; exact List.mem_cons_self first rest
    have hfirst_lt : first < parent.children.length := childIndices_mem_lt parent fid first hfirst_mem
    have hlast_mem : rest.getLast?.getD first ∈ childIndicesByFieldId parent fid := by
      rw [hci]; exact getLastD_mem_cons first rest
    have hlast_lt : rest.getLast?.getD first < parent.children.length :=
      childIndices_mem_lt parent fid _ hlast_mem
    have hj_le : walkBackward lang parent.children first ≤ first :=
      walkBackward_le lang parent.children first
    have hj_lt : walkBackward lang parent.children first < parent.children.length :=
      Nat.lt_of_le_of_lt hj_le hfirst_lt
    have hk_lt : walkForward lang parent.children (rest.getLast?.getD first)
        < parent.children.length :=
      walkForwardAux_lt lang parent.children parent.children.length _ hlast_lt
    refine ⟨walkBackward lang parent.children first,
      walkForward lang parent.children (rest.getLast?.getD first),
      parent.children.get ⟨_, hj_lt⟩, parent.children.get ⟨_, hk_lt⟩,
      List.get?_eq_get hj_lt, List.get?_eq_get hk_lt, ?_, hj_le,
      walkForwardAux_ge lang parent.children parent.children.length _,
      walkBackward_comments lang parent.children first,
      walkBackward_stop lang parent.children first,
      walkForwardAux_comments lang parent.children parent.children.length _,
      walkForwardAux_stop lang parent.children parent.children.length _
        (Nat.le_add_right _ _) ⟩
    unfold get_range_nodes_for_list
    rw [hci]
    simp only [List.get?_eq_get hj_lt, List.get?_eq_get hk_lt]

/-- A parent whose field 7 holds two children (indices 2 and 4), each
surrounded by comment siblings (kind 90) and delimited by non-comment tokens. -/
def commentListParent : NodeWithSource :=
  ⟨⟨2, true, none, 0, 7, 0, 0, 0, 7⟩,
    [⟨1, true, none, 0, 1, 0, 0, 0, 1⟩,
     ⟨90, false, none, 1, 2, 0, 1, 0, 2⟩,
     ⟨5, true, some 7, 2, 3, 0, 2, 0, 3⟩,
     ⟨90, false, none, 3, 4, 0, 3, 0, 4⟩,
     ⟨5, true, some 7, 4, 5, 0, 4, 0, 5⟩,
     ⟨90, false, none, 5, 6, 0, 5, 0, 6⟩,
     ⟨1, true, none, 6, 7, 0, 6, 0, 7⟩],
    "abcdefg"⟩

/-- Witness for the C7 theorem at a concrete list with comment neighbours. -/
theorem c7_list_range_resolver_witness :
    childIndicesByFieldId commentListParent 7 = [2, 4] ∧
    (∃ j k lnode tnode,
      commentListParent.children.get? j = some lnode ∧
      commentListParent.children.get? k = some tnode ∧
      get_range_nodes_for_list exampleLang commentListParent 7 = some (lnode, tnode) ∧
      j ≤ 2 ∧
      [4].getLast?.getD 2 ≤ k ∧
      (∀ m, j ≤ m → m < 2 →
        ∃ d, commentListParent.children.get? m = some d ∧
          exampleLang.isComment d.kindId = true) ∧
      (∀ p d, j = p + 1 → commentListParent.children.get? p = some d →
        exampleLang.isComment d.kindId = false) ∧
      (∀ m, [4].getLast?.getD 2 < m → m ≤ k →
        ∃ d, commentListParent.children.get? m = some d ∧
          exampleLang.isComment d.kindId = true) ∧
      (∀ d, commentListParent.children.get? (k + 1) = some d →
        exampleLang.isComment d.kindId = false)) :=
  ⟨by decide,
    (c7_list_range_resolver_bounds exampleLang commentListParent 7).2 2 [4] (by decide)⟩

/-- The kind of an effect (`grit_util::EffectKind`). -/
inductive EffectKind where
  | Insert
  | Rewrite
deriving DecidableEq, Repr

/-- Modelled from the spec: an effect "associates a Binding (the edit anchor)
with a kind (Insert or Rewrite) and a replacement pattern"
(`grit_pattern_matcher::effects::Effect`, crate code outside the inspected
sources).  The replacement pattern's recursive linearization
(`ResolvedPattern::linearized_text`) is modelled by the deterministic
resolved text `patternText` it produces. -/
structure Effect where
  binding : MarzanoBinding
  patternText : String
  kind : EffectKind
deriving DecidableEq, Repr

/-- The memo table: a code-range-keyed association list with insert-shadowing
semantics (`HashMap<CodeRange, Option<String>>`); `some none` is the
in-progress sentinel, `some (some s)` a resolved text, `none` unseen. -/
abbrev Memo := List (CodeRange × Option String)

/-- Lookup in the memo table. -/
def memoLookup (m : Memo) (r : CodeRange) : Option (Option String) :=
  (m.find? (fun kv => decide (kv.1 = r))).map (fun kv => kv.2)

/-- Insert (overwrite) in the memo table. -/
def memoInsert (m : Memo) (r : CodeRange) (v : Option String) : Memo :=
  (r, v) :: m

/-- Modelled from the spec: whether a range lies within the anchor range over
the same source buffer (`CodeRange::applies_to`, crate code outside the
inspected sources). -/
def appliesTo (r target : CodeRange) : Bool :=
  r.src == target.src && decide (target.start ≤ r.start) && decide (r.stop ≤ target.stop)

/-- Strict containment of one code range in another, used to recognize
effects nested inside another effect's range. -/
def strictlyContains (outer inner : CodeRange) : Bool :=
  outer.src == inner.src && decide (outer.start ≤ inner.start) &&
    decide (inner.stop ≤ outer.stop) && !(decide (outer = inner))

/-- Modelled from the spec: the top-level-effect partitioner
(`get_top_level_effects`, crate code outside the inspected sources): given
the anchor range it "returns only those effects not nested within another
effect's range".  Effects whose binding has no derivable range cannot be
nested and are passed through, since the spec's step 2 handles them inside
`linearize_binding` itself. -/
def get_top_level_effects (lang : Language) (effects : List Effect) (target : CodeRange) :
    List Effect :=
  effects.filter (fun e =>
    match MarzanoBinding.code_range lang e.binding with
    | some r =>
      appliesTo r target &&
      !(effects.any (fun e2 =>
        match MarzanoBinding.code_range lang e2.binding with
        | some r2 => appliesTo r2 target && strictlyContains r2 r
        | none => false))
    | none => true)

/-- Modelled from the spec: the padding-alignment primitive `align_padding`
("adjusting inserted/rewritten text's surrounding whitespace to match source
indentation conventions", an external language primitive).  The claims under
verification do not depend on the whitespace adjustment itself, so it is
modelled as the identity adjustment: the source text of the requested range,
with the replacement ranges unchanged. -/
def align_padding (src : String) (r : CodeRange) : String :=
  strSlice src r.start r.stop

/-- One pending replacement handed to the splicing primitive: kind, absolute
start/stop bytes, replacement text (`EffectRange` plus its text). -/
structure Replacement where
  kind : EffectKind
  start : Nat
  stop : Nat
  text : String
deriving DecidableEq, Repr

/-- Stable insertion of a replacement into a start-ordered list. -/
def insertRep (x : Replacement) : List Replacement → List Replacement
  | [] => [x]
  | y :: ys => if x.start < y.start then x :: y :: ys else y :: insertRep x ys

/-- Stable insertion sort of replacements by start byte. -/
def sortReps : List Replacement → List Replacement
  | [] => []
  | x :: xs => insertRep x (sortReps xs)

/-- Base-text substitution: emit the text up to each replacement, then the
replacement (rewrites replace the range's own text, inserts keep it and
append after it), then continue past the range. -/
def spliceGo (src : List Char) (offset : Nat) : Nat → List Replacement → List Char
  | pos, [] => src.drop pos
  | pos, x :: rest =>
    let s := x.start - offset
    let e := x.stop - offset
    let pre := (src.drop pos).take (s - pos)
    let mid := match x.kind with
      | .Insert => ((src.drop s).take (e - s)) ++ x.text.data
      | .Rewrite => x.text.data
    pre ++ mid ++ spliceGo src offset e rest

/-- Modelled from the spec: the text-splicing primitive
`inline_sorted_snippets_with_offset` (crate code outside the inspected
sources), which "substitutes each replacement into the base text in
byte-range order and returns final text". -/
def inline_sorted_snippets_with_offset (src : String) (offset : Nat)
    (reps : List Replacement) : String :=
  String.mk (spliceGo src.data offset 0 (sortReps reps))

/-- One resolved effect triple: binding, resolved text, kind. -/
abbrev ResolvedEffect := MarzanoBinding × String × EffectKind

/-- The per-effect resolution step of `linearize_binding` (lines 73–122 of
the source): a Rewrite whose range is memoized reuses the memoized text (or
the source-padding-only fallback at the in-progress sentinel); an unmemoized
Rewrite marks the sentinel, resolves the pattern, then stores the resolved
text; an Insert resolves directly with no memo interaction; a rangeless
binding produces the empty-field diagnostic and resolves with no
memoization. -/
def resolveOne (lang : Language) (src : String) (m : Memo) (e : Effect) :
    Memo × Option MarzanoBinding.AnalysisLog × ResolvedEffect :=
  match MarzanoBinding.code_range lang e.binding with
  | some r =>
    match e.kind with
    | .Rewrite =>
      match memoLookup m r with
      | some (some s) => (m, none, (e.binding, s, e.kind))
      | some none => (m, none, (e.binding, align_padding src r, e.kind))
      | none =>
        (memoInsert (memoInsert m r none) r (some e.patternText), none,
          (e.binding, e.patternText, e.kind))
    | .Insert => (m, none, (e.binding, e.patternText, e.kind))
  | none =>
    (m, MarzanoBinding.log_empty_field_rewrite_error lang e.binding,
      (e.binding, e.patternText, e.kind))

/-- The resolution loop over the top-level effects, threading the memo table
and collecting diagnostics and resolved triples in order. -/
def resolveEffects (lang : Language) (src : String) : Memo → List Effect →
    Memo × List MarzanoBinding.AnalysisLog × List ResolvedEffect
  | m, [] => (m, [], [])
  | m, e :: rest =>
    let step := resolveOne lang src m e
    let next := resolveEffects lang src step.1 rest
    (next.1, step.2.1.toList ++ next.2.1, step.2.2 :: next.2.2)

/-- The replacement-building loop of `linearize_binding` (lines 125–142):
every resolved effect must have a byte range; a rangeless binding aborts the
whole linearization with the hard error `binding has no position`. -/
def buildReplacements (lang : Language) : List ResolvedEffect → Except String (List Replacement)
  | [] => Except.ok []
  | (b, s, k) :: rest =>
    match MarzanoBinding.range lang b with
    | some br =>
      match buildReplacements lang rest with
      | Except.ok reps => Except.ok (⟨k, br.start, br.stop, s⟩ :: reps)
      | Except.error msg => Except.error msg
    | none => Except.error ("binding has no position")

/-- The effect-linearization engine `linearize_binding`: partition the
top-level effects for the anchor range, resolve each effect (memoizing
rewrites), build the byte-ranged replacement list, align padding on the
anchor's source text, splice the replacements, and memoize the final text
for the anchor range itself before returning.  Diagnostics are appended to
the incoming log list; the file registry and the distributed-indent width of
the original signature do not affect the modelled computation and are
omitted. -/
def linearize_binding (lang : Language) (effects : List Effect) (memo : Memo)
    (source : NodeWithSource) (range : CodeRange)
    (logs : List MarzanoBinding.AnalysisLog) :
    Except String String × Memo × List MarzanoBinding.AnalysisLog :=
  let tops := get_top_level_effects lang effects range
  let rr := resolveEffects lang source.source memo tops
  match buildReplacements lang rr.2.2 with
  | Except.error msg => (Except.error msg, rr.1, logs ++ rr.2.1)
  | Except.ok reps =>
    let adjusted := align_padding source.source range
    let res := inline_sorted_snippets_with_offset adjusted range.start reps
    (Except.ok res, memoInsert rr.1 range (some res), logs ++ rr.2.1)

/-- A parent node whose optional field 3 matched but is structurally absent. -/
def emptyFieldParent : NodeWithSource :=
  ⟨⟨1, true, none, 0, 15, 0, 0, 0, 15⟩, [], "function f() {}"⟩

/-- A Rewrite effect targeting the Empty-field binding of
`emptyFieldParent`. -/
def emptyRewriteEffect : Effect :=
  ⟨.Empty emptyFieldParent 3, "X", .Rewrite⟩

/-- C1 (code bug): a Rewrite effect whose binding is an Empty-field binding
makes `linearize_binding` record the analysis-log diagnostic naming the
field and node kind, but the call then returns the hard error
`binding has no position` from the replacement-building step instead of
leaving the text unmodified and returning successfully. -/
theorem c1_empty_rewrite_logs_diagnostic_then_fails :
    (linearize_binding exampleLang [emptyRewriteEffect] [] emptyFieldParent
        ⟨0, 15, "function f() {}"⟩ []).1 = Except.error ("binding has no position") ∧
    (linearize_binding exampleLang [emptyRewriteEffect] [] emptyFieldParent
        ⟨0, 15, "function f() {}"⟩ []).2.2 =
      [⟨441,
        "Error: failed to rewrite binding, cannot derive range of empty field body of node function_declaration",
        "function f() {}"⟩] :=
  ⟨rfl, rfl⟩

/-- Looking up the key just inserted returns the inserted value. -/
theorem memoLookup_insert_self (m : Memo) (r : CodeRange) (v : Option String) :
    memoLookup (memoInsert m r v) r = some v := by
  unfold memoLookup memoInsert
  rw [List.find?_cons_of_pos _ (by simp)]
  rfl

/-- Looking up another key is unaffected by an insertion. -/
theorem memoLookup_insert_ne (m : Memo) (r r2 : CodeRange) (v : Option String)
    (h : r2 ≠ r) : memoLookup (memoInsert m r v) r2 = memoLookup m r2 := by
  unfold memoLookup memoInsert
  rw [List.find?_cons_of_neg _ (by simpa using fun hh => h hh.symm)]

/-- Step equation of `resolveOne` on a rangeless binding. -/
theorem resolveOne_rangeless (lang : Language) (src : String) (m : Memo) (e : Effect)
    (h : MarzanoBinding.code_range lang e.binding = none) :
    resolveOne lang src m e =
      (m, MarzanoBinding.log_empty_field_rewrite_error lang e.binding,
        (e.binding, e.patternText, e.kind)) := by
  unfold resolveOne
  simp only [h]

/-- Step equation of `resolveOne` on an Insert effect with a range. -/
theorem resolveOne_insert (lang : Language) (src : String) (m : Memo) (e : Effect)
    (r : CodeRange) (h : MarzanoBinding.code_range lang e.binding = some r)
    (hk : e.kind = EffectKind.Insert) :
    resolveOne lang src m e = (m, none, (e.binding, e.patternText, EffectKind.Insert)) := by
  unfold resolveOne
  simp only [h, hk]

/-- Step equation of `resolveOne` on a Rewrite effect whose range is memoized
with resolved text. -/
theorem resolveOne_rewrite_hit (lang : Language) (src : String) (m : Memo) (e : Effect)
    (r : CodeRange) (s : String) (h : MarzanoBinding.code_range lang e.binding = some r)
    (hk : e.kind = EffectKind.Rewrite) (hm : memoLookup m r = some (some s)) :
    resolveOne lang src m e = (m, none, (e.binding, s, EffectKind.Rewrite)) := by
  unfold resolveOne
  simp only [h, hk, hm]

/-- Step equation of `resolveOne` on a Rewrite effect whose range holds the
in-progress sentinel. -/
theorem resolveOne_rewrite_sentinel (lang : Language) (src : String) (m : Memo) (e : Effect)
    (r : CodeRange) (h : MarzanoBinding.code_range lang e.binding = some r)
    (hk : e.kind = EffectKind.Rewrite) (hm : memoLookup m r = some none) :
    resolveOne lang src m e = (m, none, (e.binding, align_padding src r, EffectKind.Rewrite)) := by
  unfold resolveOne
  simp only [h, hk, hm]

/-- Step equation of `resolveOne` on an unmemoized Rewrite effect. -/
theorem resolveOne_rewrite_miss (lang : Language) (src : String) (m : Memo) (e : Effect)
    (r : CodeRange) (h : MarzanoBinding.code_range lang e.binding = some r)
    (hk : e.kind = EffectKind.Rewrite) (hm : memoLookup m r = none) :
    resolveOne lang src m e =
      (memoInsert (memoInsert m r none) r (some e.patternText), none,
        (e.binding, e.patternText, EffectKind.Rewrite)) := by
  unfold resolveOne
  simp only [h, hk, hm]

/-- Unfolding equation of `resolveEffects` on a cons cell. -/
theorem resolveEffects_cons (lang : Language) (src : String) (m : Memo) (e : Effect)
    (rest : List Effect) :
    resolveEffects lang src m (e :: rest) =
      ((resolveEffects lang src (resolveOne lang src m e).1 rest).1,
       (resolveOne lang src m e).2.1.toList
         ++ (resolveEffects lang src (resolveOne lang src m e).1 rest).2.1,
       (resolveOne lang src m e).2.2
         :: (resolveEffects lang src (resolveOne lang src m e).1 rest).2.2) := rfl

/-- Projection equation: the memo component of a cons step. -/
theorem resolveEffects_cons_memo (lang : Language) (src : String) (m : Memo) (e : Effect)
    (rest : List Effect) :
    (resolveEffects lang src m (e :: rest)).1
      = (resolveEffects lang src (resolveOne lang src m e).1 rest).1 := rfl

/-- Projection equation: the triples component of a cons step. -/
theorem resolveEffects_cons_triples (lang : Language) (src : String) (m : Memo) (e : Effect)
    (rest : List Effect) :
    (resolveEffects lang src m (e :: rest)).2.2
      = (resolveOne lang src m e).2.2
        :: (resolveEffects lang src (resolveOne lang src m e).1 rest).2.2 := rfl

/-- The code ranges of the effects in a list whose bindings have one. -/
def rangesOfEffects (lang : Language) (es : List Effect) : List CodeRange :=
  es.filterMap (fun e => MarzanoBinding.code_range lang e.binding)

/-- Cons equation of `rangesOfEffects` for a ranged head. -/
theorem rangesOfEffects_cons_some (lang : Language) (e : Effect) (rest : List Effect)
    (r : CodeRange) (h : MarzanoBinding.code_range lang e.binding = some r) :
    rangesOfEffects lang (e :: rest) = r :: rangesOfEffects lang rest := by
  unfold rangesOfEffects
  rw [List.filterMap_cons]
  simp [h]

/-- Cons equation of `rangesOfEffects` for a rangeless head. -/
theorem rangesOfEffects_cons_none (lang : Language) (e : Effect) (rest : List Effect)
    (h : MarzanoBinding.code_range lang e.binding = none) :
    rangesOfEffects lang (e :: rest) = rangesOfEffects lang rest := by
  unfold rangesOfEffects
  rw [List.filterMap_cons]
  simp [h]

/-- The per-effect step only ever writes its own effect's range: looking up
any other range is unaffected. -/
theorem resolveOne_lookup_other (lang : Language) (src : String) (m : Memo) (e : Effect)
    (r2 : CodeRange)
    (h : ∀ r, MarzanoBinding.code_range lang e.binding = some r → r ≠ r2) :
    memoLookup (resolveOne lang src m e).1 r2 = memoLookup m r2 := by
  cases hcr : MarzanoBinding.code_range lang e.binding with
  | none => rw [resolveOne_rangeless lang src m e hcr]
  | some r =>
    cases hk : e.kind with
    | Insert => rw [resolveOne_insert lang src m e r hcr hk]
    | Rewrite =>
      cases hm : memoLookup m r with
      | none =>
        rw [resolveOne_rewrite_miss lang src m e r hcr hk hm]
        have hne := h r hcr
        show memoLookup (memoInsert (memoInsert m r none) r (some e.patternText)) r2
          = memoLookup m r2
        rw [memoLookup_insert_ne _ _ _ _ (fun hh => hne hh.symm)]
        rw [memoLookup_insert_ne _ _ _ _ (fun hh => hne hh.symm)]
      | some o =>
        cases o with
        | none => rw [resolveOne_rewrite_sentinel lang src m e r hcr hk hm]
        | some s => rw [resolveOne_rewrite_hit lang src m e r s hcr hk hm]

/-- The resolution loop leaves untouched every memo key that is not the range
of one of its effects. -/
theorem resolveEffects_lookup_other (lang : Language) (src : String) :
    ∀ (es : List Effect) (m : Memo) (r2 : CodeRange),
      (∀ e ∈ es, ∀ r, MarzanoBinding.code_range lang e.binding = some r → r ≠ r2) →
      memoLookup (resolveEffects lang src m es).1 r2 = memoLookup m r2 := by
  intro es
  induction es with
  | nil => intro m r2 _; rfl
  | cons e rest ih =>
    intro m r2 h
    rw [resolveEffects_cons_memo]
    rw [ih (resolveOne lang src m e).1 r2 (fun e' he' => h e' (List.mem_cons_of_mem e he'))]
    exact resolveOne_lookup_other lang src m e r2 (h e (List.mem_cons_self e rest))

/-- After the resolution loop, the memo entry of a Rewrite effect's range is
its incoming entry if one existed, and otherwise the effect's own resolved
pattern text (provided the effects' ranges are pairwise distinct). -/
theorem resolveEffects_lookup_rewrite (lang : Language) (src : String) :
    ∀ (es : List Effect) (m : Memo) (e : Effect) (r : CodeRange),
      (rangesOfEffects lang es).Pairwise (fun a b => a ≠ b) →
      e ∈ es → e.kind = EffectKind.Rewrite →
      MarzanoBinding.code_range lang e.binding = some r →
      memoLookup (resolveEffects lang src m es).1 r =
        (match memoLookup m r with
         | some o => some o
         | none => some (some e.patternText)) := by
  intro es
  induction es with
  | nil => intro m e r _ hmem; cases hmem
  | cons e0 rest ih =>
    intro m e r hpw hmem hk hcr
    rcases List.mem_cons.mp hmem with heq | hmem'
    · subst heq
      rw [resolveEffects_cons_memo]
      have htail : ∀ e' ∈ rest, ∀ r', MarzanoBinding.code_range lang e'.binding = some r' →
          r' ≠ r := by
        intro e' he' r' hcr'
        have hr' : r' ∈ rangesOfEffects lang rest := List.mem_filterMap.mpr ⟨e', he', hcr'⟩
        rw [rangesOfEffects_cons_some lang e rest r hcr] at hpw
        have hne := (List.pairwise_cons.mp hpw).1 r' hr'
        exact fun hh => hne hh.symm
      rw [resolveEffects_lookup_other lang src rest _ r htail]
      cases hm : memoLookup m r with
      | none =>
        rw [resolveOne_rewrite_miss lang src m e r hcr hk hm]
        exact memoLookup_insert_self _ _ _
      | some o =>
        cases o with
        | none => rw [resolveOne_rewrite_sentinel lang src m e r hcr hk hm]; exact hm
        | some s => rw [resolveOne_rewrite_hit lang src m e r s hcr hk hm]; exact hm
    · rw [resolveEffects_cons_memo]
      have hpw' : (rangesOfEffects lang rest).Pairwise (fun a b => a ≠ b) := by
        cases hcr0 : MarzanoBinding.code_range lang e0.binding with
        | none => rw [rangesOfEffects_cons_none lang e0 rest hcr0] at hpw; exact hpw
        | some r0 =>
          rw [rangesOfEffects_cons_some lang e0 rest r0 hcr0] at hpw
          exact (List.pairwise_cons.mp hpw).2
      rw [ih (resolveOne lang src m e0).1 e r hpw' hmem' hk hcr]
      have hstep : memoLookup (resolveOne lang src m e0).1 r = memoLookup m r := by
        apply resolveOne_lookup_other
        intro r0 hcr0
        have hr : r ∈ rangesOfEffects lang rest := List.mem_filterMap.mpr ⟨e, hmem', hcr⟩
        rw [rangesOfEffects_cons_some lang e0 rest r0 hcr0] at hpw
        exact (List.pairwise_cons.mp hpw).1 r hr
      rw [hstep]

/-- The binding of the triple produced for an effect is the effect's own
binding. -/
theorem resolveOne_triple_binding (lang : Language) (src : String) (m : Memo) (e : Effect) :
    (resolveOne lang src m e).2.2.1 = e.binding := by
  cases hcr : MarzanoBinding.code_range lang e.binding with
  | none => rw [resolveOne_rangeless lang src m e hcr]
  | some r =>
    cases hk : e.kind with
    | Insert => rw [resolveOne_insert lang src m e r hcr hk]
    | Rewrite =>
      cases hm : memoLookup m r with
      | none => rw [resolveOne_rewrite_miss lang src m e r hcr hk hm]
      | some o =>
        cases o with
        | none => rw [resolveOne_rewrite_sentinel lang src m e r hcr hk hm]
        | some s => rw [resolveOne_rewrite_hit lang src m e r s hcr hk hm]

/-- The triples produced by the resolution loop carry exactly the effects'
bindings, in order. -/
theorem resolveEffects_bindings (lang : Language) (src : String) :
    ∀ (es : List Effect) (m : Memo),
      ((resolveEffects lang src m es).2.2).map (fun t => t.1)
        = es.map (fun e => e.binding) := by
  intro es
  induction es with
  | nil => intro m; rfl
  | cons e rest ih =>
    intro m
    rw [resolveEffects_cons_triples]
    rw [List.map_cons, List.map_cons]
    rw [resolveOne_triple_binding, ih]

/-- Memo agreement between a run's starting table and a (later) reference
table, relative to a list of effects: every Rewrite effect of the list either
sees the same memoized value in both tables, or is unseen in the starting
table and resolved to its pattern text in the reference table. -/
def MemoConsistent (lang : Language) (m bigM : Memo) (es : List Effect) : Prop :=
  ∀ e ∈ es, e.kind = EffectKind.Rewrite →
    ∀ r, MarzanoBinding.code_range lang e.binding = some r →
      (match memoLookup m r with
       | some o => memoLookup bigM r = some o
       | none => memoLookup bigM r = some (some e.patternText))

/-- A run from a consistent reference table produces the same resolved
triples as the original run, and never writes to the table (every rewrite
hits the memo). -/
theorem resolveEffects_consistent (lang : Language) (src : String) :
    ∀ (es : List Effect) (m bigM : Memo), MemoConsistent lang m bigM es →
      (resolveEffects lang src bigM es).2.2 = (resolveEffects lang src m es).2.2 ∧
      (resolveEffects lang src bigM es).1 = bigM := by
  intro es
  induction es with
  | nil => intro m bigM _; exact ⟨rfl, rfl⟩
  | cons e rest ih =>
    intro m bigM hcons
    have htail0 : MemoConsistent lang m bigM rest :=
      fun e' he' => hcons e' (List.mem_cons_of_mem e he')
    cases hcr : MarzanoBinding.code_range lang e.binding with
    | none =>
      have h1 := resolveOne_rangeless lang src m e hcr
      have h2 := resolveOne_rangeless lang src bigM e hcr
      have ihh := ih m bigM htail0
      constructor
      · rw [resolveEffects_cons_triples, resolveEffects_cons_triples, h1, h2, ihh.1]
      · rw [resolveEffects_cons_memo, h2, ihh.2]
    | some r =>
      cases hk : e.kind with
      | Insert =>
        have h1 := resolveOne_insert lang src m e r hcr hk
        have h2 := resolveOne_insert lang src bigM e r hcr hk
        have ihh := ih m bigM htail0
        constructor
        · rw [resolveEffects_cons_triples, resolveEffects_cons_triples, h1, h2, ihh.1]
        · rw [resolveEffects_cons_memo, h2, ihh.2]
      | Rewrite =>
        have hhead := hcons e (List.mem_cons_self e rest) hk r hcr
        cases hm : memoLookup m r with
        | some o =>
          have hbM : memoLookup bigM r = some o := by
            rw [hm] at hhead; exact hhead
          have ihh := ih m bigM htail0
          cases o with
          | some s =>
            have h1 := resolveOne_rewrite_hit lang src m e r s hcr hk hm
            have h2 := resolveOne_rewrite_hit lang src bigM e r s hcr hk hbM
            constructor
            · rw [resolveEffects_cons_triples, resolveEffects_cons_triples, h1, h2, ihh.1]
            · rw [resolveEffects_cons_memo, h2, ihh.2]
          | none =>
            have h1 := resolveOne_rewrite_sentinel lang src m e r hcr hk hm
            have h2 := resolveOne_rewrite_sentinel lang src bigM e r hcr hk hbM
            constructor
            · rw [resolveEffects_cons_triples, resolveEffects_cons_triples, h1, h2, ihh.1]
            · rw [resolveEffects_cons_memo, h2, ihh.2]
        | none =>
          have hbM : memoLookup bigM r = some (some e.patternText) := by
            rw [hm] at hhead; exact hhead
          have h1 := resolveOne_rewrite_miss lang src m e r hcr hk hm
          have h2 := resolveOne_rewrite_hit lang src bigM e r e.patternText hcr hk hbM
          have htail : MemoConsistent lang
              (memoInsert (memoInsert m r none) r (some e.patternText)) bigM rest := by
            intro e' he' hk' r' hcr'
            by_cases hrr : r' = r
            · subst hrr
              rw [memoLookup_insert_self]
              exact hbM
            · rw [memoLookup_insert_ne _ _ _ _ hrr, memoLookup_insert_ne _ _ _ _ hrr]
              exact htail0 e' he' hk' r' hcr'
          have ihh := ih (memoInsert (memoInsert m r none) r (some e.patternText)) bigM htail
          constructor
          · rw [resolveEffects_cons_triples, resolveEffects_cons_triples, h1, h2, ihh.1]
          · rw [resolveEffects_cons_memo, h2, ihh.2]

/-- Step equation of `buildReplacements` on a rangeless triple. -/
theorem buildReplacements_cons_none (lang : Language) (b : MarzanoBinding) (s : String)
    (k : EffectKind) (rest : List ResolvedEffect)
    (h : MarzanoBinding.range lang b = none) :
    buildReplacements lang ((b, s, k) :: rest) = Except.error ("binding has no position") := by
  unfold buildReplacements
  simp only [h]

/-- Step equation of `buildReplacements` on a ranged triple. -/
theorem buildReplacements_cons_some (lang : Language) (b : MarzanoBinding) (s : String)
    (k : EffectKind) (rest : List ResolvedEffect) (br : ByteRange)
    (h : MarzanoBinding.range lang b = some br) :
    buildReplacements lang ((b, s, k) :: rest) =
      (match buildReplacements lang rest with
       | Except.ok reps => Except.ok (⟨k, br.start, br.stop, s⟩ :: reps)
       | Except.error msg => Except.error msg) := by
  conv_lhs => unfold buildReplacements
  simp only [h]

/-- A successful replacement build means every triple's binding had a byte
range. -/
theorem buildReplacements_ok_mem (lang : Language) :
    ∀ (ts : List ResolvedEffect) (reps : List Replacement),
      buildReplacements lang ts = Except.ok reps →
      ∀ t ∈ ts, (MarzanoBinding.range lang t.1).isSome = true := by
  intro ts
  induction ts with
  | nil => intro reps _ t ht; cases ht
  | cons t0 rest ih =>
    intro reps hok t ht
    rcases t0 with ⟨b, s, k⟩
    cases hbr : MarzanoBinding.range lang b with
    | none =>
      rw [buildReplacements_cons_none lang b s k rest hbr] at hok
      cases hok
    | some br =>
      rw [buildReplacements_cons_some lang b s k rest br hbr] at hok
      cases hrec : buildReplacements lang rest with
      | error msg => rw [hrec] at hok; cases hok
      | ok reps' =>
        rcases List.mem_cons.mp ht with heq | hmem
        · subst heq; rw [hbr]; rfl
        · exact ih reps' hrec t hmem

/-- A binding's byte range agrees with its code range. -/
theorem range_of_code_range (lang : Language) (b : MarzanoBinding) (r : CodeRange)
    (h : MarzanoBinding.code_range lang b = some r) :
    MarzanoBinding.range lang b = some ⟨r.start, r.stop⟩ := by
  cases b with
  | Node n =>
    simp [MarzanoBinding.code_range] at h
    simp [MarzanoBinding.range, ← h]
  | StringB src br =>
    simp [MarzanoBinding.code_range] at h
    simp [MarzanoBinding.range, ← h]
  | ListB p f =>
    cases hg : get_range_nodes_for_list lang p f with
    | none => simp [MarzanoBinding.code_range, hg] at h
    | some pr =>
      simp [MarzanoBinding.code_range, hg] at h
      simp [MarzanoBinding.range, hg, ← h]
  | Empty p f => simp [MarzanoBinding.code_range] at h
  | FileName p => simp [MarzanoBinding.code_range] at h
  | ConstantRef c => simp [MarzanoBinding.code_range] at h

/-- A binding with a byte range also has a code range. -/
theorem code_range_isSome_of_range (lang : Language) (b : MarzanoBinding) (br : ByteRange)
    (h : MarzanoBinding.range lang b = some br) :
    (MarzanoBinding.code_range lang b).isSome = true := by
  cases b with
  | Node n => rfl
  | StringB src r => rfl
  | ListB p f =>
    cases hg : get_range_nodes_for_list lang p f with
    | none => simp [MarzanoBinding.range, hg] at h
    | some pr => simp [MarzanoBinding.code_range, hg]
  | Empty p f => simp [MarzanoBinding.range] at h
  | FileName p => simp [MarzanoBinding.range] at h
  | ConstantRef c => simp [MarzanoBinding.range] at h

/-- Destruct a true boolean conjunction. -/
theorem andE {a b : Bool} (h : (a && b) = true) : a = true ∧ b = true := by
  simp only [Bool.and_eq_true] at h
  exact h

/-- Two code ranges that do not overlap (one ends before the other starts). -/
def nonOverlapB (r1 r2 : CodeRange) : Bool :=
  decide (r1.stop ≤ r2.start) || decide (r2.stop ≤ r1.start)

/-- All pairs of a list of code ranges are non-overlapping. -/
def pairwiseNonOverlapB : List CodeRange → Bool
  | [] => true
  | r :: rs => rs.all (fun r2 => nonOverlapB r r2) && pairwiseNonOverlapB rs

/-- The well-formedness contract of §4.4 (no two top-level effects at the
same anchor overlap), stated as a boolean: the ranges of the top-level
effects are pairwise non-overlapping and non-degenerate, and the anchor
range is ordered and within the source buffer. -/
def linearizeWellFormedB (lang : Language) (effects : List Effect) (range : CodeRange)
    (source : NodeWithSource) : Bool :=
  pairwiseNonOverlapB (rangesOfEffects lang (get_top_level_effects lang effects range)) &&
  (rangesOfEffects lang (get_top_level_effects lang effects range)).all
    (fun r => decide (r.start < r.stop)) &&
  decide (range.start ≤ range.stop) &&
  decide (range.stop ≤ source.source.data.length)

/-- Pairwise non-overlapping, non-degenerate ranges are pairwise distinct. -/
theorem pairwise_ne_of_nonoverlap (rs : List CodeRange)
    (hpw : pairwiseNonOverlapB rs = true)
    (hnd : rs.all (fun r => decide (r.start < r.stop)) = true) :
    rs.Pairwise (fun a b => a ≠ b) := by
  induction rs with
  | nil => exact List.Pairwise.nil
  | cons r rest ih =>
    have h1 := (andE hpw).1
    have h2 := (andE hpw).2
    rw [List.all_cons] at hnd
    have hnd1 := (andE hnd).1
    have hnd2 := (andE hnd).2
    refine List.Pairwise.cons ?_ (ih h2 hnd2)
    intro r2 hr2 heq
    have hno := List.all_eq_true.mp h1 r2 hr2
    subst heq
    simp [nonOverlapB] at hno
    simp at hnd1
    omega

/-- An anchor-wide range and any second non-degenerate range inside the
anchor must overlap, so they cannot both be top-level. -/
theorem no_second_effect (anchor : CodeRange) (rs : List CodeRange)
    (hpw : pairwiseNonOverlapB rs = true)
    (hnd : rs.all (fun r => decide (r.start < r.stop)) = true)
    (hap : ∀ r ∈ rs, appliesTo r anchor = true)
    (hmem : anchor ∈ rs) (hlen : 2 ≤ rs.length) : False := by
  cases rs with
  | nil => simp at hlen
  | cons r1 rtail =>
    cases rtail with
    | nil => simp at hlen
    | cons r2 rt =>
      have h1 := (andE hpw).1
      rcases List.mem_cons.mp hmem with heq | hmemt
      · subst heq
        have hno := List.all_eq_true.mp h1 r2 (List.mem_cons_self r2 rt)
        have hap2 := hap r2 (List.mem_cons_of_mem _ (List.mem_cons_self r2 rt))
        have hnd1 := List.all_eq_true.mp hnd _ (List.mem_cons_self _ _)
        have hnd2 := List.all_eq_true.mp hnd r2 (List.mem_cons_of_mem _ (List.mem_cons_self r2 rt))
        simp [nonOverlapB] at hno
        simp [appliesTo] at hap2
        simp at hnd1 hnd2
        omega
      · have hno := List.all_eq_true.mp h1 anchor hmemt
        have hap1 := hap r1 (List.mem_cons_self r1 _)
        have hnd1 := List.all_eq_true.mp hnd r1 (List.mem_cons_self _ _)
        have hndA := List.all_eq_true.mp hnd anchor (List.mem_cons_of_mem _ hmemt)
        simp [nonOverlapB] at hno
        simp [appliesTo] at hap1
        simp at hnd1 hndA
        omega

/-- A top-level effect's range lies within the anchor. -/
theorem tops_appliesTo (lang : Language) (effects : List Effect) (target : CodeRange) :
    ∀ e ∈ get_top_level_effects lang effects target,
      ∀ r, MarzanoBinding.code_range lang e.binding = some r →
        appliesTo r target = true := by
  intro e he r hcr
  have hf := (List.mem_filter.mp he).2
  simp only [hcr] at hf
  exact (andE hf).1

/-- Length of a slice within bounds. -/
theorem strSlice_data_length (s : String) (a b : Nat) (h1 : a ≤ b)
    (h2 : b ≤ s.data.length) : (strSlice s a b).data.length = b - a := by
  show ((s.data.drop a).take (b - a)).length = b - a
  rw [List.length_take, List.length_drop]
  rw [Nat.min_eq_left (by omega)]

/-- A string is reassembled unchanged from its character data. -/
theorem stringMk_data (s : String) : String.mk s.data = s := rfl

/-- Splicing a single rewrite that covers the whole aligned range yields
exactly the replacement text. -/
theorem splice_full_rewrite (src : String) (a b : Nat) (t : String)
    (hlen : src.data.length = b - a) :
    inline_sorted_snippets_with_offset src a [⟨EffectKind.Rewrite, a, b, t⟩] = t := by
  show String.mk (spliceGo src.data a 0 (sortReps [⟨EffectKind.Rewrite, a, b, t⟩])) = t
  have hs : sortReps [⟨EffectKind.Rewrite, a, b, t⟩] = [⟨EffectKind.Rewrite, a, b, t⟩] := rfl
  rw [hs]
  have e1 : spliceGo src.data a 0 [⟨EffectKind.Rewrite, a, b, t⟩]
      = ((src.data.drop 0).take (a - a - 0)) ++ t.data ++ spliceGo src.data a (b - a) [] := rfl
  rw [e1]
  have e2 : spliceGo src.data a (b - a) [] = src.data.drop (b - a) := rfl
  rw [e2, ← hlen, List.drop_length]
  rw [Nat.sub_self]
  simp

/-- A successful replacement build implies every top-level effect's binding
had a code range. -/
theorem ok_all_ranges (lang : Language) (src0 : String) (es : List Effect) (m : Memo)
    (reps : List Replacement)
    (hok : buildReplacements lang (resolveEffects lang src0 m es).2.2 = Except.ok reps) :
    ∀ e ∈ es, (MarzanoBinding.code_range lang e.binding).isSome = true := by
  intro e he
  have hb : e.binding ∈ ((resolveEffects lang src0 m es).2.2).map (fun t => t.1) := by
    rw [resolveEffects_bindings]
    exact List.mem_map.mpr ⟨e, he, rfl⟩
  rcases List.mem_map.mp hb with ⟨t, ht, hteq⟩
  have hr := buildReplacements_ok_mem lang _ reps hok t ht
  rw [hteq] at hr
  rcases Option.isSome_iff_exists.mp hr with ⟨br, hbr⟩
  exact code_range_isSome_of_range lang e.binding br hbr

/-- C3: linearization is idempotent under memoization.  Under the §4.4
contract (pairwise non-overlapping, non-degenerate top-level effect ranges,
anchor range within the source), a successful `linearize_binding` call leaves
the anchor range itself memoized to the resolved text, and calling
`linearize_binding` again for the same anchor with the memo table produced by
the first call returns text identical to the first call's result. -/
theorem c3_linearize_memoization_idempotent (lang : Language) (effects : List Effect)
    (m0 : Memo) (source : NodeWithSource) (range : CodeRange)
    (logs0 logs1 : List MarzanoBinding.AnalysisLog)
    (res1 : String) (m1 : Memo) (lgs1 : List MarzanoBinding.AnalysisLog)
    (hwf : linearizeWellFormedB lang effects range source = true)
    (h1 : linearize_binding lang effects m0 source range logs0 = (Except.ok res1, m1, lgs1)) :
    memoLookup m1 range = some (some res1) ∧
    (linearize_binding lang effects m1 source range logs1).1 = Except.ok res1 := by
  have h_d2 := (andE hwf).2
  have h_l1 := (andE hwf).1
  have h_d1 := (andE h_l1).2
  have h_l2 := (andE h_l1).1
  have h_pw := (andE h_l2).1
  have h_nd := (andE h_l2).2
  have hr1 : range.start ≤ range.stop := of_decide_eq_true h_d1
  have hr2 : range.stop ≤ source.source.data.length := of_decide_eq_true h_d2
  simp only [linearize_binding] at h1
  cases hb : buildReplacements lang
      (resolveEffects lang source.source m0
        (get_top_level_effects lang effects range)).2.2 with
  | error msg => rw [hb] at h1; simp at h1
  | ok reps =>
    rw [hb] at h1
    simp only [Prod.mk.injEq] at h1
    obtain ⟨h1a, h1b, h1c⟩ := h1
    simp only [Except.ok.injEq] at h1a
    have hconc1 : memoLookup m1 range = some (some res1) := by
      rw [← h1b, memoLookup_insert_self, h1a]
    refine ⟨hconc1, ?_⟩
    by_cases hA : ∃ e ∈ get_top_level_effects lang effects range,
        e.kind = EffectKind.Rewrite ∧
          MarzanoBinding.code_range lang e.binding = some range
    · rcases hA with ⟨e, he, hek, her⟩
      have hall := ok_all_ranges lang source.source
        (get_top_level_effects lang effects range) m0 reps hb
      have hsing : get_top_level_effects lang effects range = [e] := by
        cases htt : get_top_level_effects lang effects range with
        | nil => rw [htt] at he; cases he
        | cons x xs =>
          cases xs with
          | nil =>
            rw [htt] at he
            rcases List.mem_cons.mp he with heq | hthem
            · rw [heq]
            · cases hthem
          | cons y ys =>
            exfalso
            rw [htt] at hall he h_pw h_nd
            obtain ⟨rx, hrx⟩ := Option.isSome_iff_exists.mp
              (hall x (List.mem_cons_self x (y :: ys)))
            obtain ⟨ry, hry⟩ := Option.isSome_iff_exists.mp
              (hall y (List.mem_cons_of_mem x (List.mem_cons_self y ys)))
            have hanch : range ∈ rangesOfEffects lang (x :: y :: ys) :=
              List.mem_filterMap.mpr ⟨e, he, her⟩
            refine no_second_effect range (rangesOfEffects lang (x :: y :: ys))
              h_pw h_nd ?_ hanch ?_
            · intro r hr
              rcases List.mem_filterMap.mp hr with ⟨e', he', hcr'⟩
              exact tops_appliesTo lang effects range e' (htt.symm ▸ he') r hcr'
            · rw [rangesOfEffects_cons_some lang x (y :: ys) rx hrx,
                rangesOfEffects_cons_some lang y ys ry hry]
              simp
      have hstep2 := resolveOne_rewrite_hit lang source.source m1 e range res1 her hek hconc1
      have htr2 : (resolveEffects lang source.source m1
          (get_top_level_effects lang effects range)).2.2
          = [(e.binding, res1, EffectKind.Rewrite)] := by
        rw [hsing, resolveEffects_cons_triples, hstep2]
        rfl
      have hbr : MarzanoBinding.range lang e.binding = some ⟨range.start, range.stop⟩ :=
        range_of_code_range lang e.binding range her
      have hbuild2 : buildReplacements lang [(e.binding, res1, EffectKind.Rewrite)]
          = Except.ok [⟨EffectKind.Rewrite, range.start, range.stop, res1⟩] := by
        rw [buildReplacements_cons_some lang e.binding res1 EffectKind.Rewrite []
          ⟨range.start, range.stop⟩ hbr]
        rfl
      have hsplice : inline_sorted_snippets_with_offset (align_padding source.source range)
          range.start [⟨EffectKind.Rewrite, range.start, range.stop, res1⟩] = res1 := by
        apply splice_full_rewrite
        exact strSlice_data_length source.source range.start range.stop hr1 hr2
      simp only [linearize_binding]
      rw [htr2, hbuild2]
      show Except.ok (inline_sorted_snippets_with_offset (align_padding source.source range)
        range.start [⟨EffectKind.Rewrite, range.start, range.stop, res1⟩]) = Except.ok res1
      rw [hsplice]
    · push_neg at hA
      have hpairne := pairwise_ne_of_nonoverlap _ h_pw h_nd
      have hcons : MemoConsistent lang m0 m1 (get_top_level_effects lang effects range) := by
        intro e he hk r hcr
        have hrne : r ≠ range := by
          intro hh
          subst hh
          exact (hA e he hk) hcr
        have hlk : memoLookup m1 r = memoLookup (resolveEffects lang source.source m0
            (get_top_level_effects lang effects range)).1 r := by
          rw [← h1b]
          exact memoLookup_insert_ne _ _ _ _ hrne
        cases hm0 : memoLookup m0 r with
        | some o =>
          rw [hlk, resolveEffects_lookup_rewrite lang source.source
            (get_top_level_effects lang effects range) m0 e r hpairne he hk hcr, hm0]
        | none =>
          rw [hlk, resolveEffects_lookup_rewrite lang source.source
            (get_top_level_effects lang effects range) m0 e r hpairne he hk hcr, hm0]
      have heq := resolveEffects_consistent lang source.source
        (get_top_level_effects lang effects range) m0 m1 hcons
      simp only [linearize_binding]
      rw [heq.1, hb]
      show Except.ok (inline_sorted_snippets_with_offset (align_padding source.source range)
        range.start reps) = Except.ok res1
      rw [h1a]

/-- A statement node over the buffer `x = 1;`, used as a linearization
anchor. -/
def stmtNodeC3 : NodeWithSource :=
  ⟨⟨10, true, none, 0, 6, 0, 0, 0, 6⟩, [], "x = 1;"⟩

/-- A Rewrite effect replacing the whole statement with `x = 2;`. -/
def rewriteEffectC3 : Effect :=
  ⟨.Node stmtNodeC3, "x = 2;", .Rewrite⟩

/-- The anchor code range of the statement. -/
def anchorC3 : CodeRange := ⟨0, 6, "x = 1;"⟩

/-- The memo table produced by the first linearization call of the witness
scenario. -/
def memo1C3 : Memo :=
  [(anchorC3, some ("x = 2;")), (anchorC3, some ("x = 2;")), (anchorC3, none)]

/-- Witness for the C3 theorem: a concrete single full-statement rewrite,
with the first call's result and memo computed, and the second call
reproducing the same text. -/
theorem c3_linearize_memoization_witness :
    linearizeWellFormedB exampleLang [rewriteEffectC3] anchorC3 stmtNodeC3 = true ∧
    linearize_binding exampleLang [rewriteEffectC3] [] stmtNodeC3 anchorC3 []
      = (Except.ok ("x = 2;"), memo1C3, []) ∧
    (memoLookup memo1C3 anchorC3 = some (some ("x = 2;")) ∧
      (linearize_binding exampleLang [rewriteEffectC3] memo1C3 stmtNodeC3 anchorC3 []).1
        = Except.ok ("x = 2;")) :=
  ⟨by decide, rfl,
    c3_linearize_memoization_idempotent exampleLang [rewriteEffectC3] [] stmtNodeC3
      anchorC3 [] [] ("x = 2;") memo1C3 [] (by decide) rfl⟩

end GritCore
